import Mathlib

/-!
# Positional index of a log segment (`internal/log/index.go`)

A shallow embedding of the `index` type and its operations `newIndex`, `Read`
and `Write`.

* Bytes are natural numbers (a byte of a real mapping is `< 256`).
* `uint32` / `uint64` arithmetic is arithmetic on `Nat` followed by an explicit
  reduction modulo `2^32` / `2^64`; an `int64` argument is an `Int`.
* A Go slice expression `a[lo:hi]` panics unless `lo ≤ hi ≤ cap a`; the mapped
  region is taken to have `cap = len`.  A panic is the `Result.panic` outcome.
* The outcomes of the system calls made by `newIndex` are supplied by the
  environment as `error` values.
-/

namespace Log

/-! ## Machine integers -/

/-- Reduction of a natural number to `uint64`. -/
def u64 (n : Nat) : Nat := n % 2 ^ 64

/-- Reduction of a natural number to `uint32`. -/
def u32 (n : Nat) : Nat := n % 2 ^ 32

/-- Conversion `uint32(in)` of an `int64` value: the low 32 bits. -/
def u32OfInt (n : Int) : Nat := (n % 2 ^ 32).toNat

/-- Conversion `int64(v)` of a `uint64` value (two's complement). -/
def i64OfU64 (v : Nat) : Int :=
  if v % 2 ^ 64 < 2 ^ 63 then ((v % 2 ^ 64 : Nat) : Int) else ((v % 2 ^ 64 : Nat) : Int) - 2 ^ 64

/-! ## Constants of the source -/

/-- Width of the record offset, `offWidth uint64 = 4`. -/
def offWidth : Nat := 4

/-- Width of the store position, `posWidth uint64 = 8`. -/
def posWidth : Nat := 8

/-- Width of one entry, `entWidth = offWidth + posWidth`. -/
def entWidth : Nat := offWidth + posWidth

/-! ## Errors and outcomes -/

/-- Go `error` values that occur here: `nil`, `io.EOF`, and an operating-system error. -/
inductive error where
  | nil : error
  | EOF : error
  | os (code : Nat) : error
  deriving DecidableEq, Repr

/-- Outcome of a call: it returns a value, or the goroutine panics. -/
inductive Result (α : Type) where
  | ret (a : α) : Result α
  | panic : Result α
  deriving DecidableEq, Repr

/-! ## Byte order -/

/-- Modelled from the spec: the package-level byte order `enc` is declared outside
`index.go`; the spec says both fields of an entry are big-endian.  `Uint32 b` decodes
the first four bytes of `b`. -/
def Uint32 (b : List Nat) : Nat :=
  ((b.getD 0 0 * 256 + b.getD 1 0) * 256 + b.getD 2 0) * 256 + b.getD 3 0

/-- Modelled from the spec: big-endian decoding of the first eight bytes of `b`
(`enc.Uint64`, with `enc` declared outside `index.go`). -/
def Uint64 (b : List Nat) : Nat :=
  ((((((b.getD 0 0 * 256 + b.getD 1 0) * 256 + b.getD 2 0) * 256 + b.getD 3 0) * 256
    + b.getD 4 0) * 256 + b.getD 5 0) * 256 + b.getD 6 0) * 256 + b.getD 7 0

/-- Modelled from the spec: the four bytes `enc.PutUint32` stores for `v`, most
significant first (`enc` is declared outside `index.go`). -/
def PutUint32 (v : Nat) : List Nat :=
  [v / 2 ^ 24 % 256, v / 2 ^ 16 % 256, v / 2 ^ 8 % 256, v % 256]

/-- Modelled from the spec: the eight bytes `enc.PutUint64` stores for `v`, most
significant first (`enc` is declared outside `index.go`). -/
def PutUint64 (v : Nat) : List Nat :=
  [v / 2 ^ 56 % 256, v / 2 ^ 48 % 256, v / 2 ^ 40 % 256, v / 2 ^ 32 % 256,
   v / 2 ^ 24 % 256, v / 2 ^ 16 % 256, v / 2 ^ 8 % 256, v % 256]

/-! ## Slices of the mapped region -/

/-- The slice expression `a[lo:hi]`: `none` is the out-of-range panic. -/
def slice (a : List Nat) (lo hi : Nat) : Option (List Nat) :=
  if lo ≤ hi ∧ hi ≤ a.length then some ((a.drop lo).take (hi - lo)) else none

/-- Storing the bytes `bs` through the slice `a[lo:hi]` (as `enc.PutUint32` and
`enc.PutUint64` do): `none` is the panic of the slice expression, or of the store when
the slice is shorter than `bs`. -/
def putAt (a : List Nat) (lo hi : Nat) (bs : List Nat) : Option (List Nat) :=
  if lo ≤ hi ∧ hi ≤ a.length ∧ bs.length ≤ hi - lo then
    some (a.take lo ++ bs ++ a.drop (lo + bs.length))
  else none

/-! ## The index -/

/-- The backing file: its contents. -/
structure File where
  data : List Nat
  deriving DecidableEq, Repr

/-- The `index` struct: file handle, mapped region, logical size (`uint64`). -/
structure index where
  file : File
  mmap : List Nat
  size : Nat
  deriving DecidableEq, Repr

/-- The effect of truncating a file to length `n`: cut, or extend with zero bytes. -/
def File.truncate (f : File) (n : Nat) : File :=
  ⟨f.data.take n ++ List.replicate (n - f.data.length) 0⟩

/-- `newIndex(f, c)`.  `statErr`, `truncErr`, `mapErr` are the results the environment
gives to `os.Stat`, `os.Truncate` and `gommap.Map`; `MaxIndexBytes` is
`c.Segment.MaxIndexBytes`.  A negative length is refused by `os.Truncate`.
Returns the pair `(*index, error)`, `none` being the nil pointer. -/
def newIndex (statErr truncErr mapErr : error) (f : File) (MaxIndexBytes : Nat) :
    Option index × error :=
  if statErr ≠ error.nil then (none, statErr) else
  let size := u64 f.data.length
  let n := i64OfU64 MaxIndexBytes
  if n < 0 then (none, error.os 22) else
  if truncErr ≠ error.nil then (none, truncErr) else
  let g := f.truncate n.toNat
  if mapErr ≠ error.nil then (none, mapErr) else
  (some { file := g, mmap := g.data, size := size }, error.nil)

/-- The entry number `out` that `Read` computes from its argument. -/
def readOut (i : index) (in_ : Int) : Nat :=
  if in_ = -1 then u32 (u64 (i.size / entWidth + 2 ^ 64 - 1)) else u32OfInt in_

/-- The byte position `pos = uint64(out) * entWidth` that `Read` computes. -/
def readPos (i : index) (in_ : Int) : Nat :=
  u64 (readOut i in_ * entWidth)

/-- `(*index).Read(in)`: returns `(out, pos, err)`. -/
def Read (i : index) (in_ : Int) : Result (Nat × Nat × error) :=
  if i.size = 0 then Result.ret (0, 0, error.EOF) else
  let pos := readPos i in_
  if i.size < u64 (pos + entWidth) then Result.ret (0, 0, error.EOF) else
  match slice i.mmap pos (u64 (pos + offWidth)) with
  | none => Result.panic
  | some a =>
    match slice i.mmap (u64 (pos + offWidth)) (u64 (pos + entWidth)) with
    | none => Result.panic
    | some b => Result.ret (Uint32 a, Uint64 b, error.nil)

/-- `(*index).Write(off, pos)`: returns the error, together with the index after the call. -/
def Write (i : index) (off pos : Nat) : Result (index × error) :=
  if i.mmap.length < u64 (i.size + entWidth) then Result.ret (i, error.EOF) else
  match putAt i.mmap i.size (u64 (i.size + offWidth)) (PutUint32 off) with
  | none => Result.panic
  | some m1 =>
    match putAt m1 (u64 (i.size + offWidth)) (u64 (i.size + entWidth)) (PutUint64 pos) with
    | none => Result.panic
    | some m2 => Result.ret ({ i with mmap := m2, size := u64 (i.size + entWidth) }, error.nil)

/-! ## Sequences of calls -/

/-- Writing the pairs in order; `some` final index exactly when every `Write` returned `nil`. -/
def writeAll (i : index) : List (Nat × Nat) → Option index
  | [] => some i
  | p :: ps =>
    match Write i p.1 p.2 with
    | Result.ret (j, error.nil) => writeAll j ps
    | _ => none

/-- A call on the index. -/
inductive Op where
  | read (in_ : Int) : Op
  | write (off pos : Nat) : Op
  deriving DecidableEq, Repr

/-- One call: the index after it and the error it returned.  `Read` assigns to no field. -/
def step (i : index) : Op → Result (index × error)
  | Op.read n =>
    match Read i n with
    | Result.ret (_, _, e) => Result.ret (i, e)
    | Result.panic => Result.panic
  | Op.write off pos => Write i off pos

/-- Running a sequence of calls: the index and error after each call, in order. -/
def trace (i : index) : List Op → Result (List (index × error))
  | [] => Result.ret []
  | op :: ops =>
    match step i op with
    | Result.panic => Result.panic
    | Result.ret (j, e) =>
      match trace j ops with
      | Result.panic => Result.panic
      | Result.ret tr => Result.ret ((j, e) :: tr)

/-- The index after a trace that started in `i`. -/
def finalIndex (i : index) : List (index × error) → index
  | [] => i
  | (j, _) :: tr => finalIndex j tr

/-- Number of calls of a sequence that are `Write`s which returned `nil`. -/
def okWrites : List Op → List (index × error) → Nat
  | Op.write _ _ :: ops, (_, error.nil) :: tr => okWrites ops tr + 1
  | _ :: ops, _ :: tr => okWrites ops tr
  | _, _ => 0

/-- The index states that calls of `Write` and `Read` lead to from the state `i0`; a call
that panics leads nowhere. -/
inductive ReachableFrom (i0 : index) : index → Prop where
  | init : ReachableFrom i0 i0
  | call (i j : index) (op : Op) (e : error) :
      ReachableFrom i0 i → step i op = Result.ret (j, e) → ReachableFrom i0 j

/-- An index state reachable from some successful `newIndex`. -/
def Reachable (i : index) : Prop :=
  ∃ (statErr truncErr mapErr : error) (f : File) (m : Nat) (i0 : index),
    f.data.length < 2 ^ 63 ∧ m < 2 ^ 64 ∧
    newIndex statErr truncErr mapErr f m = (some i0, error.nil) ∧ ReachableFrom i0 i

/-- An index with `n` zero bytes mapped and the given size. -/
def zeroIndex (n size : Nat) : index :=
  { file := ⟨List.replicate n 0⟩, mmap := List.replicate n 0, size := size }

/-- The mapped region after an entry has been stored at byte `s`. -/
def stored (m : List Nat) (s off pos : Nat) : List Nat :=
  m.take s ++ (PutUint32 off ++ PutUint64 pos) ++ m.drop (s + 12)

/-- The decoded result of `Read` at byte position `p`. -/
def decodeAt (m : List Nat) (p : Nat) : Nat × Nat × error :=
  (Uint32 ((m.drop p).take 4), Uint64 ((m.drop (p + 4)).take 8), error.nil)

/-- The bytes of a sequence of entries, 12 per entry. -/
def encodeAll : List (Nat × Nat) → List Nat
  | [] => []
  | p :: ps => (PutUint32 p.1 ++ PutUint64 p.2) ++ encodeAll ps

/-- An index of `2^32 + 1` entry slots, all bytes zero, nothing written. -/
def bigIndex : index := zeroIndex (12 * (2 ^ 32 + 1)) 0

/-- A sequence of `2^32 + 1` pairs: `2^32` times `(0, 0)`, then `(1, 1)`. -/
def bigPairs : List (Nat × Nat) := List.replicate (2 ^ 32) (0, 0) ++ [(1, 1)]

/-- The size changes allowed along a run that starts at size `s`: a `Read` leaves the size as
it is; a `Write` that returned `nil` adds exactly 12; a `Write` that returned an error leaves it
as it is. -/
def sizeSteps : Nat → List Op → List (index × error) → Prop
  | _, [], [] => True
  | s, Op.read _ :: ops, (j, _) :: tr => j.size = s ∧ sizeSteps j.size ops tr
  | s, Op.write _ _ :: ops, (j, e) :: tr =>
    ((e = error.nil ∧ j.size = s + 12) ∨ (e ≠ error.nil ∧ j.size = s)) ∧
      sizeSteps j.size ops tr
  | _, _, _ => False

/-! ## Closing the index -/

/-- The system calls that `Close` makes, in the order of the source. -/
inductive Call where
  | mmapSync : Call
  | fileSync : Call
  | fileTruncate (n : Int) : Call
  | fileClose : Call
  deriving DecidableEq, Repr

/-- The file once the shared mapping `m` has been written back to it: the mapped bytes,
followed by whatever the file holds beyond the mapping. -/
def File.synced (f : File) (m : List Nat) : File :=
  ⟨m ++ f.data.drop m.length⟩

/-- The result of `i.file.Truncate(n)`: a negative length is refused, otherwise the
environment decides (`truncErr`). -/
def truncateResult (truncErr : error) (n : Int) : error :=
  if n < 0 then error.os 22 else truncErr

/-- `(*index).Close()`.  `syncErr`, `fsyncErr`, `truncErr`, `closeErr` are the results the
environment gives to `mmap.Sync`, `file.Sync`, `file.Truncate` and `file.Close`.  Returns
the calls made, the file as it is left, and the error returned. -/
def Close (syncErr fsyncErr truncErr closeErr : error) (i : index) :
    List Call × File × error :=
  if syncErr ≠ error.nil then ([Call.mmapSync], i.file, syncErr) else
  let f1 := i.file.synced i.mmap
  if fsyncErr ≠ error.nil then ([Call.mmapSync, Call.fileSync], f1, fsyncErr) else
  let n := i64OfU64 i.size
  if truncateResult truncErr n ≠ error.nil then
    ([Call.mmapSync, Call.fileSync, Call.fileTruncate n], f1, truncateResult truncErr n)
  else
    ([Call.mmapSync, Call.fileSync, Call.fileTruncate n, Call.fileClose],
      f1.truncate n.toNat, closeErr)

/-- An index of two slots holding the entries `(0, 0)` and `(1, 10)`. -/
def twoEntries : index :=
  { file := ⟨List.replicate 24 0⟩,
    mmap := [0, 0, 0, 0, 0, 0, 0, 0, 0, 0, 0, 0, 0, 0, 0, 1, 0, 0, 0, 0, 0, 0, 0, 10],
    size := 24 }

/-- The index `bigIndex` after every pair of `bigPairs` has been written. -/
def bigFull : index :=
  { bigIndex with mmap := encodeAll bigPairs, size := 12 * (2 ^ 32 + 1) }

/-! ## Byte order: decoding inverts encoding -/

theorem Uint32_PutUint32 (v : Nat) (h : v < 2 ^ 32) : Uint32 (PutUint32 v) = v := by
  simp only [Uint32, PutUint32, List.getD_cons_zero, List.getD_cons_succ]
  omega

theorem Uint64_PutUint64 (v : Nat) (h : v < 2 ^ 64) : Uint64 (PutUint64 v) = v := by
  simp only [Uint64, PutUint64, List.getD_cons_zero, List.getD_cons_succ]
  omega

theorem PutUint32_length (v : Nat) : (PutUint32 v).length = 4 := rfl

theorem PutUint64_length (v : Nat) : (PutUint64 v).length = 8 := rfl

/-! ## Slices -/

theorem slice_eq_some (a : List Nat) (lo hi : Nat) (h1 : lo ≤ hi) (h2 : hi ≤ a.length) :
    slice a lo hi = some ((a.drop lo).take (hi - lo)) := by
  simp [slice, h1, h2]

theorem slice_append_mid (pre mid post : List Nat) (lo hi : Nat) (hlo : lo = pre.length)
    (hhi : hi = pre.length + mid.length) :
    slice (pre ++ mid ++ post) lo hi = some mid := by
  subst hlo hhi
  simp [slice]

theorem putAt_eq_some (a : List Nat) (lo hi : Nat) (bs : List Nat) (h1 : lo ≤ hi)
    (h2 : hi ≤ a.length) (h3 : bs.length ≤ hi - lo) :
    putAt a lo hi bs = some (a.take lo ++ bs ++ a.drop (lo + bs.length)) := by
  simp [putAt, h1, h2, h3]

theorem putAt_some_iff (a : List Nat) (lo hi : Nat) (bs r : List Nat) :
    putAt a lo hi bs = some r ↔
      (lo ≤ hi ∧ hi ≤ a.length ∧ bs.length ≤ hi - lo) ∧
        r = a.take lo ++ bs ++ a.drop (lo + bs.length) := by
  unfold putAt
  split
  · rename_i h
    simp [h, eq_comm]
  · rename_i h
    simp [h]

theorem putAt_length (a : List Nat) (lo hi : Nat) (bs r : List Nat)
    (h : putAt a lo hi bs = some r) : r.length = a.length := by
  obtain ⟨⟨h1, h2, h3⟩, rfl⟩ := (putAt_some_iff a lo hi bs r).1 h
  simp only [List.length_append, List.length_take, List.length_drop]
  omega

/-! ## What `Write` does -/

theorem stored_length (m : List Nat) (s off pos : Nat) (h : s + 12 ≤ m.length) :
    (stored m s off pos).length = m.length := by
  simp only [stored, List.length_append, List.length_take, List.length_drop, PutUint32_length,
    PutUint64_length]
  omega

theorem two_puts (m : List Nat) (s : Nat) (a b : List Nat) (ha : a.length = 4)
    (h : s + 12 ≤ m.length) :
    (m.take s ++ a ++ m.drop (s + 4)).take (s + 4) ++ b ++
      (m.take s ++ a ++ m.drop (s + 4)).drop (s + 4 + 8) = m.take s ++ (a ++ b) ++ m.drop (s + 12) := by
  have hl : (m.take s ++ a).length = s + 4 := by
    simp only [List.length_append, List.length_take, ha]; omega
  have h1 : (m.take s ++ a ++ m.drop (s + 4)).take (s + 4) = m.take s ++ a := by
    rw [← hl, List.take_left]
  have h2 : (m.take s ++ a ++ m.drop (s + 4)).drop (s + 4 + 8) = m.drop (s + 12) := by
    have : s + 4 + 8 = (m.take s ++ a).length + 8 := by rw [hl]
    rw [this, List.drop_append, List.drop_drop]
    congr 1
  rw [h1, h2]
  simp only [List.append_assoc]

/-- Inversion of `Write`: a returning call either refused (`io.EOF`, nothing changed) or stored
the entry at `[size, size + 12)` and advanced `size` by 12. -/
theorem Write_ret_iff (i j : index) (off pos : Nat) (e : error) :
    Write i off pos = Result.ret (j, e) ↔
      (i.mmap.length < u64 (i.size + entWidth) ∧ e = error.EOF ∧ j = i) ∨
      (i.size + 12 ≤ i.mmap.length ∧ i.size + 12 < 2 ^ 64 ∧ e = error.nil ∧
        j = { i with mmap := stored i.mmap i.size off pos, size := i.size + 12 }) := by
  unfold Write
  by_cases hc : i.mmap.length < u64 (i.size + entWidth)
  · simp only [hc, if_true, Result.ret.injEq, Prod.mk.injEq]
    constructor
    · rintro ⟨rfl, rfl⟩
      exact Or.inl ⟨trivial, rfl, rfl⟩
    · rintro (⟨-, rfl, rfl⟩ | ⟨h1, h2, -, -⟩)
      · exact ⟨rfl, rfl⟩
      · simp only [u64, entWidth, offWidth, posWidth] at hc
        omega
  · simp only [hc, if_false]
    by_cases hb : i.size + 12 ≤ i.mmap.length ∧ i.size + 12 < 2 ^ 64
    · obtain ⟨hb1, hb2⟩ := hb
      have e4 : u64 (i.size + offWidth) = i.size + 4 := by
        simp only [u64, offWidth]; omega
      have e12 : u64 (i.size + entWidth) = i.size + 4 + 8 := by
        simp only [u64, entWidth, offWidth, posWidth]; omega
      rw [e4, e12, putAt_eq_some _ _ _ _ (by omega) (by omega) (by simp [PutUint32_length])]
      simp only
      rw [putAt_eq_some _ _ _ _ (by omega)
        (by simp only [List.length_append, List.length_take, List.length_drop,
              PutUint32_length]; omega)
        (by simp [PutUint64_length])]
      simp only [PutUint32_length, PutUint64_length]
      rw [two_puts _ _ _ _ (PutUint32_length off) hb1]
      simp only [Result.ret.injEq, Prod.mk.injEq, stored]
      constructor
      · rintro ⟨rfl, rfl⟩
        exact Or.inr ⟨hb1, hb2, rfl, rfl⟩
      · rintro (⟨h, -, -⟩ | ⟨-, -, rfl, rfl⟩)
        · exact h.elim
        · exact ⟨rfl, rfl⟩
    · constructor
      · intro h
        exfalso
        apply hb
        cases h1 : putAt i.mmap i.size (u64 (i.size + offWidth)) (PutUint32 off) with
        | none => simp [h1] at h
        | some m1 =>
          rw [h1] at h
          simp only at h
          cases h2 : putAt m1 (u64 (i.size + offWidth)) (u64 (i.size + entWidth))
              (PutUint64 pos) with
          | none => simp [h2] at h
          | some m2 =>
            have hl := putAt_length _ _ _ _ _ h1
            obtain ⟨⟨a1, a2, a3⟩, -⟩ := (putAt_some_iff _ _ _ _ _).1 h1
            obtain ⟨⟨b1, b2, b3⟩, -⟩ := (putAt_some_iff _ _ _ _ _).1 h2
            simp only [u64, entWidth, offWidth, posWidth, PutUint32_length,
              PutUint64_length] at a1 a2 a3 b1 b2 b3 hl
            rw [hl] at b2
            omega
      · rintro (⟨h, -, -⟩ | ⟨h1, h2, -, -⟩)
        · exact h.elim
        · exact absurd ⟨h1, h2⟩ hb

/-! ## What `Read` does -/

theorem readOut_lt (i : index) (n : Int) : readOut i n < 2 ^ 32 := by
  unfold readOut
  split
  · exact Nat.mod_lt _ (by norm_num)
  · simp only [u32OfInt]
    omega

theorem readPos_eq (i : index) (n : Int) : readPos i n = readOut i n * 12 := by
  have h := readOut_lt i n
  simp only [readPos, u64, entWidth, offWidth, posWidth]
  omega

theorem readOut_ofNat (i : index) (k : Nat) (hk : k < 2 ^ 32) : readOut i (k : Int) = k := by
  have h1 : ((k : Int) = -1) = False := by
    simp only [eq_iff_iff, iff_false]; omega
  simp only [readOut, h1, if_false, u32OfInt]
  omega

theorem readOut_last (i : index) (h0 : 12 ≤ i.size) (h : i.size / 12 ≤ 2 ^ 32) :
    readOut i (-1) = i.size / 12 - 1 := by
  simp only [readOut, if_true, u32, u64, entWidth, offWidth, posWidth]
  omega

/-- `Read` in closed form: on a non-empty index it looks at the 12 bytes at `readPos`. -/
theorem Read_eq (i : index) (n : Int) :
    Read i n =
      if i.size = 0 then Result.ret (0, 0, error.EOF)
      else if i.size < readPos i n + 12 then Result.ret (0, 0, error.EOF)
      else if readPos i n + 12 ≤ i.mmap.length then Result.ret (decodeAt i.mmap (readPos i n))
      else Result.panic := by
  have hp := readPos_eq i n
  have ho := readOut_lt i n
  have e4 : u64 (readPos i n + offWidth) = readPos i n + 4 := by
    simp only [u64, offWidth]; omega
  have e12 : u64 (readPos i n + entWidth) = readPos i n + 12 := by
    simp only [u64, entWidth, offWidth, posWidth]; omega
  unfold Read
  simp only [e4, e12]
  by_cases h0 : i.size = 0
  · simp [h0]
  · simp only [h0, if_false]
    by_cases h1 : i.size < readPos i n + 12
    · simp [h1]
    · simp only [h1, if_false]
      by_cases h2 : readPos i n + 12 ≤ i.mmap.length
      · rw [slice_eq_some _ _ _ (by omega) (by omega),
          slice_eq_some _ _ _ (by omega) (by omega)]
        simp only [h2, if_true, decodeAt]
        have a1 : readPos i n + 4 - readPos i n = 4 := by omega
        have a2 : readPos i n + 12 - (readPos i n + 4) = 8 := by omega
        rw [a1, a2]
      · simp only [h2, if_false]
        cases hs : slice i.mmap (readPos i n) (readPos i n + 4) with
        | none => rfl
        | some a =>
          simp only
          cases hs2 : slice i.mmap (readPos i n + 4) (readPos i n + 12) with
          | none => rfl
          | some b =>
            exfalso
            simp only [slice] at hs2
            split at hs2
            · rename_i hh; omega
            · cases hs2

/-- Decoding the slot that holds an encoded entry gives the entry back. -/
theorem decodeAt_stored (pre post : List Nat) (p off pos : Nat) (hp : p = pre.length)
    (ho : off < 2 ^ 32) (hq : pos < 2 ^ 64) :
    decodeAt (pre ++ (PutUint32 off ++ PutUint64 pos) ++ post) p = (off, pos, error.nil) := by
  subst hp
  have h1 : ((pre ++ (PutUint32 off ++ PutUint64 pos) ++ post).drop pre.length).take 4
      = PutUint32 off := by
    rw [List.append_assoc, List.drop_left, List.append_assoc]
    exact List.take_left' (PutUint32_length off)
  have h2 : ((pre ++ (PutUint32 off ++ PutUint64 pos) ++ post).drop (pre.length + 4)).take 8
      = PutUint64 pos := by
    have : pre ++ (PutUint32 off ++ PutUint64 pos) ++ post
        = (pre ++ PutUint32 off) ++ (PutUint64 pos ++ post) := by
      simp only [List.append_assoc]
    rw [this]
    have hl : pre.length + 4 = (pre ++ PutUint32 off).length := by
      simp [PutUint32_length]
    rw [hl, List.drop_left]
    exact List.take_left' (PutUint64_length pos)
  simp only [decodeAt, h1, h2, Uint32_PutUint32 off ho, Uint64_PutUint64 pos hq]

/-! ## Writing a sequence of entries -/

theorem encodeAll_length (ps : List (Nat × Nat)) : (encodeAll ps).length = 12 * ps.length := by
  induction ps with
  | nil => rfl
  | cons p ps ih =>
    simp only [encodeAll, List.length_append, PutUint32_length, PutUint64_length, ih,
      List.length_cons]
    omega

theorem encodeAll_append (ps qs : List (Nat × Nat)) :
    encodeAll (ps ++ qs) = encodeAll ps ++ encodeAll qs := by
  induction ps with
  | nil => rfl
  | cons p ps ih =>
    show (PutUint32 p.1 ++ PutUint64 p.2) ++ encodeAll (ps ++ qs)
      = (PutUint32 p.1 ++ PutUint64 p.2) ++ encodeAll ps ++ encodeAll qs
    rw [ih]
    simp only [List.append_assoc]

theorem stored_take (m : List Nat) (s off pos : Nat) (h : s + 12 ≤ m.length) :
    (stored m s off pos).take (s + 12) = m.take s ++ (PutUint32 off ++ PutUint64 pos) := by
  have hl : (m.take s ++ (PutUint32 off ++ PutUint64 pos)).length = s + 12 := by
    simp only [List.length_append, List.length_take, PutUint32_length, PutUint64_length]
    omega
  rw [stored, ← hl, List.take_left]

theorem stored_drop (m : List Nat) (s off pos k : Nat) (h : s + 12 ≤ m.length) :
    (stored m s off pos).drop (s + 12 + k) = m.drop (s + 12 + k) := by
  have hl : (m.take s ++ (PutUint32 off ++ PutUint64 pos)).length = s + 12 := by
    simp only [List.length_append, List.length_take, PutUint32_length, PutUint64_length]
    omega
  rw [stored, ← hl, List.drop_append, List.drop_drop, hl]

/-- Writing `ps` into an index with room for all of them succeeds every time; the region then
holds the old logical data, the encoded entries, and the old tail. -/
theorem writeAll_eq (ps : List (Nat × Nat)) (i : index)
    (hfit : i.size + 12 * ps.length ≤ i.mmap.length) (hlen : i.mmap.length < 2 ^ 64) :
    writeAll i ps = some { i with
      mmap := i.mmap.take i.size ++ encodeAll ps ++ i.mmap.drop (i.size + 12 * ps.length),
      size := i.size + 12 * ps.length } := by
  induction ps generalizing i with
  | nil =>
    simp only [writeAll, encodeAll, List.length_nil, Nat.mul_zero, Nat.add_zero,
      List.append_nil, List.take_append_drop]
  | cons p ps ih =>
    simp only [List.length_cons] at hfit
    have hw : Write i p.1 p.2 = Result.ret
        ({ i with mmap := stored i.mmap i.size p.1 p.2, size := i.size + 12 }, error.nil) :=
      (Write_ret_iff _ _ _ _ _).2 (Or.inr ⟨by omega, by omega, rfl, rfl⟩)
    have hsl := stored_length i.mmap i.size p.1 p.2 (by omega)
    simp only [writeAll, hw]
    rw [ih _ (by simp only [hsl]; omega) (by simp only [hsl]; exact hlen)]
    simp only [List.length_cons, encodeAll]
    rw [stored_take _ _ _ _ (by omega), stored_drop _ _ _ _ _ (by omega)]
    have e1 : i.size + 12 + 12 * ps.length = i.size + 12 * (ps.length + 1) := by omega
    simp only [e1, List.append_assoc]

/-- After the writes, reading entry `k` (an entry number below `2^32`) gives the `k`-th pair. -/
theorem writeAll_read (i : index) (ps : List (Nat × Nat)) (h0 : i.size = 0)
    (hfit : 12 * ps.length ≤ i.mmap.length) (hlen : i.mmap.length < 2 ^ 64)
    (hty : ∀ p ∈ ps, p.1 < 2 ^ 32 ∧ p.2 < 2 ^ 64) :
    ∃ s, writeAll i ps = some s ∧ s.size = 12 * ps.length ∧
      ∀ (k : Nat) (hk : k < ps.length), k < 2 ^ 32 →
        Read s (k : Int) = Result.ret (ps[k].1, ps[k].2, error.nil) := by
  refine ⟨_, writeAll_eq ps i (by omega) hlen, by simp only [h0]; omega, ?_⟩
  intro k hk hk32
  have hpos : readPos { i with
      mmap := i.mmap.take i.size ++ encodeAll ps ++ i.mmap.drop (i.size + 12 * ps.length),
      size := i.size + 12 * ps.length } (k : Int) = 12 * k := by
    rw [readPos_eq, readOut_ofNat _ _ hk32]; omega
  rw [Read_eq, hpos]
  have hsplit : ps = ps.take k ++ ps[k] :: ps.drop (k + 1) := by
    rw [← List.drop_eq_getElem_cons hk, List.take_append_drop]
  have hm : i.mmap.take i.size ++ encodeAll ps ++ i.mmap.drop (i.size + 12 * ps.length)
      = encodeAll (ps.take k) ++ (PutUint32 ps[k].1 ++ PutUint64 ps[k].2)
        ++ (encodeAll (ps.drop (k + 1)) ++ i.mmap.drop (12 * ps.length)) := by
    rw [h0, List.take_zero, List.nil_append, Nat.zero_add]
    have he : encodeAll ps = encodeAll (ps.take k)
        ++ ((PutUint32 ps[k].1 ++ PutUint64 ps[k].2) ++ encodeAll (ps.drop (k + 1))) := by
      conv_lhs => rw [hsplit]
      rw [encodeAll_append, encodeAll]
    rw [he]
    simp only [List.append_assoc]
  have hlenm : (i.mmap.take i.size ++ encodeAll ps
      ++ i.mmap.drop (i.size + 12 * ps.length)).length = i.mmap.length := by
    simp only [List.length_append, List.length_take, List.length_drop, encodeAll_length]
    omega
  have c1 : ¬ (i.size + 12 * ps.length = 0) := by omega
  have c2 : ¬ (i.size + 12 * ps.length < 12 * k + 12) := by omega
  have c3 : 12 * k + 12 ≤ i.mmap.length := by omega
  simp only [c1, c2, hlenm, c3, if_true, if_false]
  rw [hm, decodeAt_stored _ _ _ _ _ (by
      simp only [encodeAll_length, List.length_take]; omega)
    (hty _ (List.getElem_mem _)).1 (hty _ (List.getElem_mem _)).2]

theorem Read_congr (i : index) (n m : Int) (h : readPos i n = readPos i m) :
    Read i n = Read i m := by
  rw [Read_eq, Read_eq, h]

/-! ## C1: round trip of `Write` and `Read` -/

/-- C1 (amended): on an index whose logical size is 0, writing at most `2^32` pairs that fit in
the mapped capacity succeeds every time, and afterwards `Read(k)` returns, without error,
exactly the pair passed to the `k`-th `Write`, for every `k` in `[0, n)`. -/
theorem write_read_roundtrip (i : index) (ps : List (Nat × Nat)) (h0 : i.size = 0)
    (hfit : 12 * ps.length ≤ i.mmap.length) (hlen : i.mmap.length < 2 ^ 63)
    (hty : ∀ p ∈ ps, p.1 < 2 ^ 32 ∧ p.2 < 2 ^ 64) (hn : ps.length ≤ 2 ^ 32) :
    ∃ s, writeAll i ps = some s ∧
      ∀ (k : Nat) (hk : k < ps.length),
        Read s (k : Int) = Result.ret (ps[k].1, ps[k].2, error.nil) := by
  obtain ⟨s, hs, -, hr⟩ := writeAll_read i ps h0 hfit (by omega) hty
  exact ⟨s, hs, fun k hk => hr k hk (by omega)⟩

theorem write_read_roundtrip_witness :
    ∃ s, writeAll (zeroIndex 24 0) [(0, 0), (1, 10)] = some s ∧
      ∀ (k : Nat) (hk : k < [((0 : Nat), (0 : Nat)), (1, 10)].length),
        Read s (k : Int)
          = Result.ret ([((0 : Nat), (0 : Nat)), (1, 10)][k].1,
              [((0 : Nat), (0 : Nat)), (1, 10)][k].2, error.nil) :=
  write_read_roundtrip (zeroIndex 24 0) [(0, 0), (1, 10)] rfl (by decide) (by decide)
    (by decide) (by decide)

theorem bigPairs_length : bigPairs.length = 2 ^ 32 + 1 := by
  unfold bigPairs
  rw [List.length_append, List.length_replicate, List.length_singleton]

theorem bigIndex_length : bigIndex.mmap.length = 12 * (2 ^ 32 + 1) := by
  simp only [bigIndex, zeroIndex, List.length_replicate]

theorem bigPairs_typed : ∀ p ∈ bigPairs, p.1 < 2 ^ 32 ∧ p.2 < 2 ^ 64 := by
  intro p hp
  simp only [bigPairs, List.mem_append, List.mem_singleton] at hp
  rcases hp with hp | hp
  · rw [(List.mem_replicate.1 hp).2]
    exact ⟨by norm_num, by norm_num⟩
  · rw [hp]
    exact ⟨by norm_num, by norm_num⟩

theorem bigPairs_last : bigPairs[2 ^ 32]? = some (1, 1) := by
  simp only [bigPairs]
  rw [List.getElem?_append_right (by simp only [List.length_replicate]; exact le_refl _)]
  simp only [List.length_replicate, Nat.sub_self]
  rfl

theorem bigPairs_head (h : 0 < bigPairs.length) : bigPairs[0] = (0, 0) := by
  simp only [bigPairs]
  rw [List.getElem_append_left (by simp only [List.length_replicate]; norm_num)]
  exact List.getElem_replicate _ _

/-- C1 as stated fails past `2^32` entries: with `2^32 + 1` slots mapped and `2^32 + 1` pairs
written (all writes succeed), `Read(2^32)` returns the pair of entry 0, `(0, 0)`, not the pair
`(1, 1)` passed to that `Write`. -/
theorem roundtrip_fails_past_uint32 :
    bigIndex.size = 0 ∧ 12 * bigPairs.length ≤ bigIndex.mmap.length ∧
    bigIndex.mmap.length < 2 ^ 63 ∧
    (∀ p ∈ bigPairs, p.1 < 2 ^ 32 ∧ p.2 < 2 ^ 64) ∧
    bigPairs[2 ^ 32]? = some (1, 1) ∧
    ∃ s, writeAll bigIndex bigPairs = some s ∧
      Read s (2 ^ 32 : Int) = Result.ret (0, 0, error.nil) := by
  have hl := bigPairs_length
  have hm := bigIndex_length
  have h0 : bigIndex.size = 0 := rfl
  refine ⟨h0, by rw [hl, hm], by rw [hm]; norm_num, bigPairs_typed, bigPairs_last, ?_⟩
  obtain ⟨s, hs, -, hr⟩ := writeAll_read bigIndex bigPairs h0 (by rw [hl, hm])
    (by rw [hm]; norm_num) bigPairs_typed
  refine ⟨s, hs, ?_⟩
  have hpos : readPos s (2 ^ 32 : Int) = readPos s ((0 : Nat) : Int) := by
    simp only [readPos, readOut, u32OfInt]
    norm_num
  have hpl : 0 < bigPairs.length := by rw [hl]; norm_num
  rw [Read_congr s _ _ hpos, hr 0 hpl (by norm_num), bigPairs_head hpl]

/-! ## C2: `Read(-1)` after a successful `Write` -/

theorem decodeAt_stored_self (m : List Nat) (s off pos : Nat) (hs : s ≤ m.length)
    (ho : off < 2 ^ 32) (hq : pos < 2 ^ 64) :
    decodeAt (stored m s off pos) s = (off, pos, error.nil) :=
  decodeAt_stored _ _ _ _ _ (by rw [List.length_take]; omega) ho hq

/-- C2 (amended): for every index state whose size is a multiple of 12 and which holds fewer
than `2^32` entries, if `Write(offset, position)` returns no error then a `Read(-1)` issued
immediately afterwards returns `(offset, position)` with no error. -/
theorem read_last_after_write (i j : index) (off pos : Nat) (ho : off < 2 ^ 32)
    (hq : pos < 2 ^ 64) (hmul : i.size % 12 = 0) (hcnt : i.size / 12 < 2 ^ 32)
    (hw : Write i off pos = Result.ret (j, error.nil)) :
    Read j (-1) = Result.ret (off, pos, error.nil) := by
  rcases (Write_ret_iff _ _ _ _ _).1 hw with ⟨-, he, -⟩ | ⟨h1, -, -, rfl⟩
  · cases he
  · have hpos : readPos { i with mmap := stored i.mmap i.size off pos, size := i.size + 12 }
        (-1) = i.size := by
      rw [readPos_eq, readOut_last _ (by simp only; omega) (by simp only; omega)]
      simp only
      omega
    have hsl := stored_length i.mmap i.size off pos h1
    rw [Read_eq, hpos]
    have c1 : ¬ (i.size + 12 = 0) := by omega
    have c2 : ¬ (i.size + 12 < i.size + 12) := by omega
    have c3 : i.size + 12 ≤ i.mmap.length := h1
    simp only [c1, c2, hsl, c3, if_true, if_false]
    rw [decodeAt_stored_self _ _ _ _ (by omega) ho hq]

theorem read_last_after_write_witness :
    Read { zeroIndex 24 0 with mmap := stored (List.replicate 24 0) 0 7 9, size := 12 } (-1)
      = Result.ret (7, 9, error.nil) :=
  read_last_after_write (zeroIndex 24 0) _ 7 9 (by decide) (by decide) (by decide) (by decide)
    (by decide)

/-- C2 as stated fails on an index opened on a file whose length is not a multiple of 12:
`newIndex` on a 5-byte file with `MaxIndexBytes = 24` yields size 5; `Write(7, 9)` then
succeeds, and `Read(-1)` returns `(0, 117440512)`, not `(7, 9)`. -/
theorem read_last_wrong_on_ragged_size :
    newIndex error.nil error.nil error.nil ⟨List.replicate 5 0⟩ 24
      = (some (zeroIndex 24 5), error.nil) ∧
    Write (zeroIndex 24 5) 7 9
      = Result.ret ({ zeroIndex 24 5 with
          mmap := [0, 0, 0, 0, 0, 0, 0, 0, 7, 0, 0, 0, 0, 0, 0, 0, 9, 0, 0, 0, 0, 0, 0, 0],
          size := 17 }, error.nil) ∧
    Read { zeroIndex 24 5 with
        mmap := [0, 0, 0, 0, 0, 0, 0, 0, 7, 0, 0, 0, 0, 0, 0, 0, 9, 0, 0, 0, 0, 0, 0, 0],
        size := 17 } (-1) = Result.ret (0, 117440512, error.nil) := by
  refine ⟨by decide, by decide, by decide⟩

/-! ## C3: `Read` of an entry number at or beyond the count -/

/-- For an entry number that fits in `uint32`, the bounds check of `Read` does reject every
`n` at or beyond the entry count. -/
theorem Read_beyond_count_small (i : index) (k : Nat) (hk : k < 2 ^ 32)
    (h : i.size / 12 ≤ k) : Read i (k : Int) = Result.ret (0, 0, error.EOF) := by
  rw [Read_eq, readPos_eq, readOut_ofNat _ _ hk]
  have c : i.size < k * 12 + 12 := by omega
  simp only [c, if_true, ite_self]

/-- C3 (the code at the failing input): on an index holding one entry, `(5, 77)`,
`Read(4294967296)` returns that entry with no error although `4294967296 ≥ size / 12 = 1`. -/
theorem Read_wraps_entry_number :
    Write (zeroIndex 12 0) 5 77
      = Result.ret ({ zeroIndex 12 0 with
          mmap := [0, 0, 0, 5, 0, 0, 0, 0, 0, 0, 0, 77], size := 12 }, error.nil) ∧
    (4294967296 : Int) ≥ (12 / 12 : Nat) ∧
    Read { zeroIndex 12 0 with mmap := [0, 0, 0, 5, 0, 0, 0, 0, 0, 0, 0, 77], size := 12 }
        4294967296 = Result.ret (5, 77, error.nil) := by
  refine ⟨by decide, by decide, by decide⟩

/-! ## Reachable index states stay inside the machine integers -/

theorem truncate_length (f : File) (n : Nat) : (f.truncate n).data.length = n := by
  simp only [File.truncate, List.length_append, List.length_take, List.length_replicate]
  omega

theorem newIndex_some (statErr truncErr mapErr : error) (f : File) (m : Nat) (i0 : index)
    (e : error) (h : newIndex statErr truncErr mapErr f m = (some i0, e)) :
    i0.size = u64 f.data.length ∧ 0 ≤ i64OfU64 m ∧
      i0.mmap = (f.truncate (i64OfU64 m).toNat).data := by
  unfold newIndex at h
  split at h
  · cases h
  · simp only at h
    split at h
    · cases h
    · split at h
      · cases h
      · split at h
        · cases h
        · simp only [Prod.mk.injEq, Option.some.injEq] at h
          obtain ⟨rfl, -⟩ := h
          exact ⟨rfl, by omega, rfl⟩

theorem i64OfU64_lt (m : Nat) : i64OfU64 m < 2 ^ 63 := by
  unfold i64OfU64
  split <;> omega

theorem step_ret (i j : index) (op : Op) (e : error) (h : step i op = Result.ret (j, e)) :
    j = i ∨ (i.size + 12 ≤ i.mmap.length ∧ i.size + 12 < 2 ^ 64 ∧ e = error.nil ∧
      ∃ off pos, op = Op.write off pos ∧
        j = { i with mmap := stored i.mmap i.size off pos, size := i.size + 12 }) := by
  cases op with
  | read n =>
    simp only [step] at h
    cases hr : Read i n with
    | panic => rw [hr] at h; cases h
    | ret a =>
      rw [hr] at h
      simp only [Result.ret.injEq, Prod.mk.injEq] at h
      exact Or.inl h.1.symm
  | write off pos =>
    simp only [step] at h
    rcases (Write_ret_iff _ _ _ _ _).1 h with ⟨-, -, hj⟩ | ⟨h1, h2, he, hj⟩
    · exact Or.inl hj
    · exact Or.inr ⟨h1, h2, he, off, pos, rfl, hj⟩

theorem ReachableFrom_bounds (i0 i : index) (h : ReachableFrom i0 i)
    (h1 : i0.size < 2 ^ 63) (h2 : i0.mmap.length < 2 ^ 63) :
    i.size < 2 ^ 63 ∧ i.mmap.length = i0.mmap.length := by
  induction h with
  | init => exact ⟨h1, rfl⟩
  | call i j op e _ hs ih =>
    rcases step_ret _ _ _ _ hs with rfl | ⟨a, -, -, off, pos, -, rfl⟩
    · exact ih
    · simp only
      rw [stored_length _ _ _ _ a]
      exact ⟨by omega, ih.2⟩

theorem Reachable_bounds (i : index) (h : Reachable i) :
    i.size < 2 ^ 63 ∧ i.mmap.length < 2 ^ 63 := by
  obtain ⟨se, te, me, f, m, i0, hf, -, hn, hr⟩ := h
  obtain ⟨hs, hm0, hm⟩ := newIndex_some _ _ _ _ _ _ _ hn
  have hlt := i64OfU64_lt m
  have a1 : i0.size < 2 ^ 63 := by
    rw [hs]; simp only [u64]; omega
  have a2 : i0.mmap.length < 2 ^ 63 := by
    rw [hm, truncate_length]; omega
  obtain ⟨b1, b2⟩ := ReachableFrom_bounds i0 i hr a1 a2
  exact ⟨b1, by rw [b2]; exact a2⟩

/-! ## C4: `Write` on a full index -/

/-- C4: in every index state (reachable from `newIndex`) in which fewer than 12 bytes of mapped
capacity remain beyond `size`, `Write(offset, position)` returns `io.EOF` and the index after
the call is the index before it: `size` and every mapped byte are unchanged. -/
theorem Write_full_returns_EOF (i : index) (off pos : Nat) (hr : Reachable i)
    (hcap : i.mmap.length < i.size + 12) :
    Write i off pos = Result.ret (i, error.EOF) := by
  obtain ⟨h1, -⟩ := Reachable_bounds i hr
  refine (Write_ret_iff _ _ _ _ _).2 (Or.inl ⟨?_, rfl, rfl⟩)
  simp only [u64, entWidth, offWidth, posWidth]
  omega

theorem Write_full_returns_EOF_witness :
    Write (zeroIndex 30 24) 2 20 = Result.ret (zeroIndex 30 24, error.EOF) :=
  Write_full_returns_EOF (zeroIndex 30 24) 2 20
    ⟨error.nil, error.nil, error.nil, ⟨List.replicate 24 0⟩, 30, zeroIndex 30 24,
      by decide, by decide, by decide, ReachableFrom.init⟩
    (by decide)

/-! ## C5: a successful `Write` -/

/-- C5: for every index state with at least 12 bytes of mapped capacity beyond `size`,
`Write(offset, position)` returns no error, the 4 bytes at `[size, size+4)` become the
big-endian encoding of `offset`, the 8 bytes at `[size+4, size+12)` become the big-endian
encoding of `position`, and `size` is advanced by exactly 12. -/
theorem Write_success (i : index) (off pos : Nat) (hcap : i.size + 12 ≤ i.mmap.length)
    (hlen : i.mmap.length < 2 ^ 63) :
    ∃ j, Write i off pos = Result.ret (j, error.nil) ∧
      slice j.mmap i.size (i.size + 4) = some (PutUint32 off) ∧
      slice j.mmap (i.size + 4) (i.size + 12) = some (PutUint64 pos) ∧
      j.size = i.size + 12 := by
  refine ⟨{ i with mmap := stored i.mmap i.size off pos, size := i.size + 12 },
    (Write_ret_iff _ _ _ _ _).2 (Or.inr ⟨hcap, by omega, rfl, rfl⟩), ?_, ?_, rfl⟩
  · simp only [stored]
    rw [← List.append_assoc (i.mmap.take i.size), List.append_assoc _ (PutUint64 pos)]
    exact slice_append_mid _ _ _ _ _ (by rw [List.length_take]; omega)
      (by rw [List.length_take, PutUint32_length]; omega)
  · simp only [stored]
    rw [← List.append_assoc (i.mmap.take i.size)]
    exact slice_append_mid _ _ _ _ _
      (by rw [List.length_append, List.length_take, PutUint32_length]; omega)
      (by rw [List.length_append, List.length_take, PutUint32_length, PutUint64_length]; omega)

theorem Write_success_witness :
    ∃ j, Write (zeroIndex 24 12) 1 10 = Result.ret (j, error.nil) ∧
      slice j.mmap (zeroIndex 24 12).size ((zeroIndex 24 12).size + 4) = some (PutUint32 1) ∧
      slice j.mmap ((zeroIndex 24 12).size + 4) ((zeroIndex 24 12).size + 12)
        = some (PutUint64 10) ∧
      j.size = (zeroIndex 24 12).size + 12 :=
  Write_success (zeroIndex 24 12) 1 10 (by decide) (by decide)

/-! ## C6: `Read` looks only at the logical data -/

theorem decodeAt_take (m : List Nat) (p s : Nat) (h : p + 12 ≤ s) :
    decodeAt (m.take s) p = decodeAt m p := by
  have e1 : ((m.take s).drop p).take 4 = (m.drop p).take 4 := by
    rw [List.drop_take, List.take_take]
    congr 1
    omega
  have e2 : ((m.take s).drop (p + 4)).take 8 = (m.drop (p + 4)).take 8 := by
    rw [List.drop_take, List.take_take]
    congr 1
    omega
  simp only [decodeAt, e1, e2]

theorem readPos_size (i j : index) (n : Int) (h : j.size = i.size) :
    readPos j n = readPos i n := by
  simp only [readPos, readOut, h]

/-- Inversion of a `Read` that returned without error. -/
theorem Read_nil (i : index) (n : Int) (o p : Nat)
    (h : Read i n = Result.ret (o, p, error.nil)) :
    readPos i n + 12 ≤ i.size ∧ readPos i n + 12 ≤ i.mmap.length ∧
      (o, p, error.nil) = decodeAt i.mmap (readPos i n) := by
  rw [Read_eq] at h
  split at h
  · cases h
  · split at h
    · cases h
    · split at h
      · rename_i h1 h2 h3
        simp only [Result.ret.injEq] at h
        exact ⟨by omega, h3, h.symm⟩
      · cases h

/-- C6: whenever `Read` returns without error, the 12 bytes it decoded are the range
`[p, p+12)` with `p + 12 ≤ size`, and no byte at or beyond `size` influences the result: any
index with the same size and the same first `size` mapped bytes returns the same values. -/
theorem Read_stays_inside_size (i : index) (n : Int) (o p : Nat)
    (h : Read i n = Result.ret (o, p, error.nil)) :
    readPos i n + 12 ≤ i.size ∧
    (o, p, error.nil) = decodeAt (i.mmap.take i.size) (readPos i n) ∧
    ∀ j : index, j.size = i.size → j.mmap.take i.size = i.mmap.take i.size →
      Read j n = Result.ret (o, p, error.nil) := by
  obtain ⟨h1, h2, h3⟩ := Read_nil i n o p h
  refine ⟨h1, by rw [decodeAt_take _ _ _ h1]; exact h3, ?_⟩
  intro j hs hm
  have hl : (j.mmap.take i.size).length = (i.mmap.take i.size).length := by rw [hm]
  simp only [List.length_take] at hl
  rw [Read_eq, readPos_size i j n hs, hs]
  have c1 : ¬ (i.size = 0) := by omega
  have c2 : ¬ (i.size < readPos i n + 12) := by omega
  have c3 : readPos i n + 12 ≤ j.mmap.length := by omega
  simp only [c1, c2, c3, if_true, if_false]
  rw [h3, ← decodeAt_take j.mmap _ _ h1, hm, decodeAt_take _ _ _ h1]

theorem Read_stays_inside_size_witness :
    readPos { zeroIndex 24 0 with mmap := stored (List.replicate 24 0) 0 7 9, size := 12 } 0
        + 12 ≤ 12 ∧
    ((7 : Nat), (9 : Nat), error.nil)
      = decodeAt ((stored (List.replicate 24 0) 0 7 9).take 12)
          (readPos { zeroIndex 24 0 with
            mmap := stored (List.replicate 24 0) 0 7 9, size := 12 } 0) ∧
    ∀ j : index, j.size = 12 →
      j.mmap.take 12 = (stored (List.replicate 24 0) 0 7 9).take 12 →
      Read j 0 = Result.ret (7, 9, error.nil) :=
  Read_stays_inside_size
    { zeroIndex 24 0 with mmap := stored (List.replicate 24 0) 0 7 9, size := 12 } 0 7 9
    (by decide)

/-! ## C9: `Read` on an index with no entries -/

/-- C9: on every index with `size == 0`, whatever is mapped (even nothing), `Read` of every
`int64` input, `-1` included, returns `(0, 0, io.EOF)`; no slice of the region is taken. -/
theorem Read_empty (f : File) (m : List Nat) (n : Int) :
    Read { file := f, mmap := m, size := 0 } n = Result.ret (0, 0, error.EOF) := by
  simp only [Read, if_true]

/-! ## C7: the logical size as a multiple of 12 -/

theorem ReachableFrom_size_mod (i0 i : index) (h : ReachableFrom i0 i)
    (h0 : i0.size % 12 = 0) : i.size % 12 = 0 := by
  induction h with
  | init => exact h0
  | call i j op e _ hs ih =>
    rcases step_ret _ _ _ _ hs with rfl | ⟨-, -, -, off, pos, -, rfl⟩
    · exact ih
    · simp only
      omega

/-- C7 (amended): when `newIndex` is called on a file whose existing length is a multiple of
12 (with any `MaxIndexBytes`), then in every index state reachable from it by any sequence of
`Write` and `Read` calls, `size % 12 == 0`. -/
theorem size_multiple_of_12 (statErr truncErr mapErr : error) (f : File) (m : Nat)
    (i0 i : index) (hf : f.data.length < 2 ^ 63) (hmul : f.data.length % 12 = 0)
    (hn : newIndex statErr truncErr mapErr f m = (some i0, error.nil))
    (hr : ReachableFrom i0 i) : i.size % 12 = 0 := by
  obtain ⟨hs, -, -⟩ := newIndex_some _ _ _ _ _ _ _ hn
  refine ReachableFrom_size_mod i0 i hr ?_
  have hu : u64 f.data.length = f.data.length := Nat.mod_eq_of_lt (by omega)
  rw [hs, hu]
  exact hmul

theorem size_multiple_of_12_witness :
    ({ zeroIndex 24 0 with mmap := stored (List.replicate 24 0) 0 7 9, size := 12 }
      : index).size % 12 = 0 :=
  size_multiple_of_12 error.nil error.nil error.nil ⟨[]⟩ 24 (zeroIndex 24 0) _
    (by decide) (by decide) (by decide)
    (ReachableFrom.call (zeroIndex 24 0) _ (Op.write 7 9) error.nil ReachableFrom.init
      (by decide))

/-- C7 as stated fails: `newIndex` on a 7-byte file with `MaxIndexBytes = 24` succeeds and
yields an index of size 7, and `7 % 12 = 7`. -/
theorem size_not_multiple_of_12 :
    Reachable (zeroIndex 24 7) ∧ (zeroIndex 24 7).size % 12 = 7 :=
  ⟨⟨error.nil, error.nil, error.nil, ⟨List.replicate 7 0⟩, 24, zeroIndex 24 7,
      by decide, by decide, by decide, ReachableFrom.init⟩, by decide⟩

/-! ## C8: the size only grows, by 12 per successful `Write` -/

theorem step_size (i j : index) (op : Op) (e : error) (h : step i op = Result.ret (j, e)) :
    sizeSteps i.size [op] [(j, e)] := by
  cases op with
  | read n =>
    rcases step_ret _ _ _ _ h with rfl | ⟨-, -, -, off, pos, ho, -⟩
    · exact ⟨rfl, trivial⟩
    · cases ho
  | write off pos =>
    simp only [step] at h
    rcases (Write_ret_iff _ _ _ _ _).1 h with ⟨-, rfl, rfl⟩ | ⟨-, -, rfl, rfl⟩
    · exact ⟨Or.inr ⟨by decide, rfl⟩, trivial⟩
    · exact ⟨Or.inl ⟨rfl, rfl⟩, trivial⟩

/-- C8: along every finite sequence of `Read` and `Write` calls from any index state, the size
never decreases; each `Write` changes it by 0 (it returned an error) or by exactly +12 (it
returned `nil`), each `Read` by 0; and the final size is the initial size plus 12 times the
number of `Write`s that returned no error. -/
theorem size_only_grows (i : index) (ops : List Op) (tr : List (index × error))
    (h : trace i ops = Result.ret tr) :
    List.Chain (fun a b => a ≤ b) i.size (tr.map (fun x => x.1.size)) ∧
    sizeSteps i.size ops tr ∧
    (finalIndex i tr).size = i.size + 12 * okWrites ops tr := by
  induction ops generalizing i tr with
  | nil =>
    simp only [trace, Result.ret.injEq] at h
    subst h
    exact ⟨List.Chain.nil, trivial, rfl⟩
  | cons op ops ih =>
    simp only [trace] at h
    cases hs : step i op with
    | panic => rw [hs] at h; cases h
    | ret a =>
      obtain ⟨j, e⟩ := a
      rw [hs] at h
      simp only at h
      cases ht : trace j ops with
      | panic => rw [ht] at h; cases h
      | ret tr1 =>
        rw [ht] at h
        simp only [Result.ret.injEq] at h
        subst h
        obtain ⟨c, st, fin⟩ := ih j tr1 ht
        have h1 := step_size i j op e hs
        cases op with
        | read n =>
          obtain ⟨hj, -⟩ := h1
          have hle : i.size ≤ j.size := by omega
          refine ⟨List.Chain.cons hle c, ⟨hj, st⟩, ?_⟩
          simp only [finalIndex, okWrites, fin]
          omega
        | write off pos =>
          obtain ⟨hj, -⟩ := h1
          have hle : i.size ≤ j.size := by
            rcases hj with ⟨-, hj⟩ | ⟨-, hj⟩ <;> omega
          refine ⟨List.Chain.cons hle c, ⟨hj, st⟩, ?_⟩
          rcases hj with ⟨rfl, hj⟩ | ⟨he, hj⟩
          · simp only [finalIndex, okWrites, fin]
            omega
          · have : okWrites (Op.write off pos :: ops) ((j, e) :: tr1) = okWrites ops tr1 := by
              cases e with
              | nil => exact absurd rfl he
              | EOF => rfl
              | os c => rfl
            simp only [finalIndex, this, fin]
            omega

theorem size_only_grows_witness :
    List.Chain (fun a b => a ≤ b) (zeroIndex 12 0).size
      ([({ zeroIndex 12 0 with mmap := stored (List.replicate 12 0) 0 7 9, size := 12 },
          error.nil),
        ({ zeroIndex 12 0 with mmap := stored (List.replicate 12 0) 0 7 9, size := 12 },
          error.EOF)].map (fun x => x.1.size)) ∧
    sizeSteps (zeroIndex 12 0).size [Op.write 7 9, Op.write 8 21]
      [({ zeroIndex 12 0 with mmap := stored (List.replicate 12 0) 0 7 9, size := 12 },
          error.nil),
        ({ zeroIndex 12 0 with mmap := stored (List.replicate 12 0) 0 7 9, size := 12 },
          error.EOF)] ∧
    (finalIndex (zeroIndex 12 0)
      [({ zeroIndex 12 0 with mmap := stored (List.replicate 12 0) 0 7 9, size := 12 },
          error.nil),
        ({ zeroIndex 12 0 with mmap := stored (List.replicate 12 0) 0 7 9, size := 12 },
          error.EOF)]).size
      = (zeroIndex 12 0).size + 12 * okWrites [Op.write 7 9, Op.write 8 21]
        [({ zeroIndex 12 0 with mmap := stored (List.replicate 12 0) 0 7 9, size := 12 },
          error.nil),
        ({ zeroIndex 12 0 with mmap := stored (List.replicate 12 0) 0 7 9, size := 12 },
          error.EOF)] :=
  size_only_grows (zeroIndex 12 0) [Op.write 7 9, Op.write 8 21] _ (by decide)

/-! ## C10: the two-entry scenario -/

/-- The mapped bytes after `Write(0, 0)` and `Write(1, 10)` on 24 mapped bytes. -/
theorem stored_twice (m : List Nat) (hm : m.length = 24) :
    stored (stored m 0 0 0) 12 1 10
      = [0, 0, 0, 0, 0, 0, 0, 0, 0, 0, 0, 0, 0, 0, 0, 1, 0, 0, 0, 0, 0, 0, 0, 10] := by
  have h1 : (stored m 0 0 0).take 12 = m.take 0 ++ (PutUint32 0 ++ PutUint64 0) :=
    stored_take m 0 0 0 (by omega)
  have h2 : (stored m 0 0 0).drop (12 + 12) = m.drop (0 + 12 + 12) :=
    stored_drop m 0 0 0 12 (by omega)
  have h3 : m.drop (0 + 12 + 12) = [] := List.drop_eq_nil_of_le (by omega)
  rw [stored, h1, h2, h3]
  rfl

theorem Read_file_irrel (f g : File) (m : List Nat) (s : Nat) (n : Int) :
    Read { file := f, mmap := m, size := s } n = Read { file := g, mmap := m, size := s } n :=
  rfl

/-- C10: on an empty index whose mapped capacity is exactly 24 bytes, `Write(0, 0)` succeeds,
`Write(1, 10)` succeeds, `Write(2, 20)` fails with `io.EOF` and changes nothing; then
`Read(0) = (0, 0)`, `Read(1) = (1, 10)`, `Read(-1) = (1, 10)`, `Read(2)` fails with `io.EOF`,
and `size` is 24. -/
theorem two_entry_scenario (f : File) (m : List Nat) (hm : m.length = 24) :
    ∃ s1 s2 : index,
      Write { file := f, mmap := m, size := 0 } 0 0 = Result.ret (s1, error.nil) ∧
      Write s1 1 10 = Result.ret (s2, error.nil) ∧
      Write s2 2 20 = Result.ret (s2, error.EOF) ∧
      Read s2 0 = Result.ret (0, 0, error.nil) ∧
      Read s2 1 = Result.ret (1, 10, error.nil) ∧
      Read s2 (-1) = Result.ret (1, 10, error.nil) ∧
      Read s2 2 = Result.ret (0, 0, error.EOF) ∧
      s2.size = 24 := by
  have hl1 : (stored m 0 0 0).length = 24 := by
    rw [stored_length m 0 0 0 (by omega)]; exact hm
  refine ⟨{ file := f, mmap := stored m 0 0 0, size := 12 },
    { file := f, mmap := stored (stored m 0 0 0) 12 1 10, size := 24 }, ?_, ?_, ?_, ?_⟩
  · exact (Write_ret_iff _ _ _ _ _).2
      (Or.inr ⟨by simp only [hm]; omega, by simp only; omega, rfl, rfl⟩)
  · exact (Write_ret_iff _ _ _ _ _).2
      (Or.inr ⟨by simp only [hl1]; omega, by simp only; omega, rfl, rfl⟩)
  · refine (Write_ret_iff _ _ _ _ _).2 (Or.inl ⟨?_, rfl, rfl⟩)
    simp only [stored_twice m hm]
    decide
  · rw [stored_twice m hm]
    refine ⟨?_, ?_, ?_, ?_, rfl⟩
    · rw [Read_file_irrel f ⟨[]⟩]; decide
    · rw [Read_file_irrel f ⟨[]⟩]; decide
    · rw [Read_file_irrel f ⟨[]⟩]; decide
    · rw [Read_file_irrel f ⟨[]⟩]; decide

theorem two_entry_scenario_witness :
    ∃ s1 s2 : index,
      Write { file := ⟨[]⟩, mmap := List.replicate 24 0, size := 0 } 0 0
        = Result.ret (s1, error.nil) ∧
      Write s1 1 10 = Result.ret (s2, error.nil) ∧
      Write s2 2 20 = Result.ret (s2, error.EOF) ∧
      Read s2 0 = Result.ret (0, 0, error.nil) ∧
      Read s2 1 = Result.ret (1, 10, error.nil) ∧
      Read s2 (-1) = Result.ret (1, 10, error.nil) ∧
      Read s2 2 = Result.ret (0, 0, error.EOF) ∧
      s2.size = 24 :=
  two_entry_scenario ⟨[]⟩ (List.replicate 24 0) (by decide)

/-! ## C12: `Close` stops at the first failing step -/

/-- C12: `Close` performs (1) the synchronous mmap sync, (2) the file sync, (3) the truncate of
the file to the logical size, (4) the file close, in that order; when a step fails `Close`
returns exactly that step's error and makes none of the later calls (the file is not truncated
when a sync fails); and `Close` returns `nil` only if all four steps succeeded. -/
theorem Close_fail_fast (e1 e2 e3 e4 : error) (i : index) :
    (e1 ≠ error.nil → Close e1 e2 e3 e4 i = ([Call.mmapSync], i.file, e1)) ∧
    (e1 = error.nil → e2 ≠ error.nil →
      Close e1 e2 e3 e4 i = ([Call.mmapSync, Call.fileSync], i.file.synced i.mmap, e2)) ∧
    (e1 = error.nil → e2 = error.nil → truncateResult e3 (i64OfU64 i.size) ≠ error.nil →
      Close e1 e2 e3 e4 i
        = ([Call.mmapSync, Call.fileSync, Call.fileTruncate (i64OfU64 i.size)],
            i.file.synced i.mmap, truncateResult e3 (i64OfU64 i.size))) ∧
    (e1 = error.nil → e2 = error.nil → truncateResult e3 (i64OfU64 i.size) = error.nil →
      Close e1 e2 e3 e4 i
        = ([Call.mmapSync, Call.fileSync, Call.fileTruncate (i64OfU64 i.size),
              Call.fileClose],
            (i.file.synced i.mmap).truncate (i64OfU64 i.size).toNat, e4)) ∧
    ((Close e1 e2 e3 e4 i).2.2 = error.nil →
      e1 = error.nil ∧ e2 = error.nil ∧ truncateResult e3 (i64OfU64 i.size) = error.nil ∧
        e4 = error.nil) := by
  refine ⟨?_, ?_, ?_, ?_, ?_⟩
  · intro h1
    simp only [Close, h1, ne_eq, not_false_eq_true, if_true]
  · intro h1 h2
    simp only [Close, h1, h2, ne_eq, not_true_eq_false, not_false_eq_true, if_true, if_false]
  · intro h1 h2 h3
    simp only [Close, h1, h2, h3, ne_eq, not_true_eq_false, not_false_eq_true, if_true,
      if_false]
  · intro h1 h2 h3
    simp only [Close, h1, h2, h3, ne_eq, not_true_eq_false, if_false]
  · intro h
    by_cases h1 : e1 = error.nil
    · by_cases h2 : e2 = error.nil
      · by_cases h3 : truncateResult e3 (i64OfU64 i.size) = error.nil
        · simp only [Close, h1, h2, h3, ne_eq, not_true_eq_false, if_false] at h
          exact ⟨h1, h2, h3, h⟩
        · simp only [Close, h1, h2, h3, ne_eq, not_true_eq_false, not_false_eq_true, if_true,
            if_false] at h
      · simp only [Close, h1, h2, ne_eq, not_true_eq_false, not_false_eq_true, if_true,
          if_false] at h
    · simp only [Close, h1, ne_eq, not_false_eq_true, if_true] at h

/-! ## C11: closing and reopening -/

theorem take_truncate (f : File) (n k : Nat) (h1 : k ≤ n) (h2 : k ≤ f.data.length) :
    (f.truncate n).data.take k = f.data.take k := by
  simp only [File.truncate]
  rw [List.take_append_of_le_length (by rw [List.length_take]; omega), List.take_take]
  congr 1
  omega

theorem take_synced (f : File) (m : List Nat) (k : Nat) (h : k ≤ m.length) :
    (f.synced m).data.take k = m.take k := by
  simp only [File.synced]
  rw [List.take_append_of_le_length h]

theorem synced_length (f : File) (m : List Nat) : m.length ≤ (f.synced m).data.length := by
  simp only [File.synced, List.length_append]
  omega

/-- Inversion of a `Close` that returned `nil`: the file left behind is the written-back
mapping cut (or zero-extended) to the logical size. -/
theorem Close_nil (e1 e2 e3 e4 : error) (i : index) (calls : List Call) (g : File)
    (h : Close e1 e2 e3 e4 i = (calls, g, error.nil)) :
    0 ≤ i64OfU64 i.size ∧ g = (i.file.synced i.mmap).truncate (i64OfU64 i.size).toNat := by
  unfold Close at h
  split at h
  · rename_i h1
    simp only [Prod.mk.injEq] at h
    exact absurd h.2.2 h1
  · simp only at h
    split at h
    · rename_i h2
      simp only [Prod.mk.injEq] at h
      exact absurd h.2.2 h2
    · split at h
      · rename_i h3
        simp only [Prod.mk.injEq] at h
        exact absurd h.2.2 h3
      · rename_i h3
        simp only [Prod.mk.injEq] at h
        refine ⟨?_, h.2.1.symm⟩
        by_contra hneg
        apply h3
        simp only [truncateResult, not_le.1 hneg, if_true]
        exact fun hh => by cases hh

/-- A `Read` that returned gives the same result on any index with the same size whose mapped
region agrees with the old one on every prefix inside the old logical data. -/
theorem Read_transfer (i j : index) (n : Int) (r : Nat × Nat × error) (hs : j.size = i.size)
    (hm : ∀ k, k ≤ i.size → k ≤ i.mmap.length →
      k ≤ j.mmap.length ∧ j.mmap.take k = i.mmap.take k)
    (hr : Read i n = Result.ret r) : Read j n = Result.ret r := by
  rw [Read_eq] at hr
  rw [Read_eq, readPos_size i j n hs, hs]
  split at hr
  · rename_i h0
    simp only [h0, if_true]
    exact hr
  · rename_i h0
    split at hr
    · rename_i h1
      simp only [h0, h1, if_true, if_false]
      exact hr
    · rename_i h1
      split at hr
      · rename_i h2
        obtain ⟨a, b⟩ := hm (readPos i n + 12) (by omega) h2
        simp only [h0, h1, a, if_true, if_false]
        rw [← hr, ← decodeAt_take j.mmap _ _ (le_refl _), b, decodeAt_take _ _ _ (le_refl _)]
      · cases hr

theorem i64OfU64_nonneg (v : Nat) (hv : v < 2 ^ 64) (h : 0 ≤ i64OfU64 v) :
    v < 2 ^ 63 ∧ (i64OfU64 v).toNat = v := by
  unfold i64OfU64 at h ⊢
  have e : v % 2 ^ 64 = v := Nat.mod_eq_of_lt hv
  rw [e] at h ⊢
  by_cases hlt : v < 2 ^ 63
  · rw [if_pos hlt]
    exact ⟨hlt, Int.toNat_ofNat v⟩
  · rw [if_neg hlt] at h
    exfalso
    have h2 : (v : Int) < 2 ^ 64 := by exact_mod_cast hv
    omega

/-- C11 (amended): for every index holding `count` entries, after a `Close` in which every
step succeeds the file's length is exactly `count * 12`, and a successful `newIndex` on that
file with a `MaxIndexBytes` of at least `count * 12` yields an index on which every `Read`
that returned before closing (for `i` in `[0, count)`, for `-1`, and for any other argument)
returns the identical result. -/
theorem close_reopen_roundtrip (e1 e2 e3 e4 statErr truncErr mapErr : error) (i j : index)
    (count m : Nat) (calls : List Call) (g : File)
    (hsz : i.size = 12 * count) (hty : i.size < 2 ^ 64) (hm : m < 2 ^ 64)
    (hcap : 12 * count ≤ m)
    (hc : Close e1 e2 e3 e4 i = (calls, g, error.nil))
    (hn : newIndex statErr truncErr mapErr g m = (some j, error.nil)) :
    g.data.length = count * 12 ∧
      ∀ (n : Int) (r : Nat × Nat × error), Read i n = Result.ret r → Read j n = Result.ret r := by
  obtain ⟨hz, hg⟩ := Close_nil _ _ _ _ _ _ _ hc
  obtain ⟨hjs, hmz, hjm⟩ := newIndex_some _ _ _ _ _ _ _ hn
  obtain ⟨hlt, hsize⟩ := i64OfU64_nonneg i.size hty hz
  obtain ⟨-, hM⟩ := i64OfU64_nonneg m hm hmz
  rw [hsize] at hg
  rw [hM] at hjm
  have hgl : g.data.length = i.size := by rw [hg, truncate_length]
  refine ⟨by rw [hgl, hsz]; omega, ?_⟩
  intro n r hr
  refine Read_transfer i j n r ?_ ?_ hr
  · rw [hjs, hgl]
    exact Nat.mod_eq_of_lt (by omega)
  · intro k hk1 hk2
    have hjl : j.mmap.length = m := by rw [hjm, truncate_length]
    refine ⟨by omega, ?_⟩
    rw [hjm, take_truncate g m k (by omega) (by omega), hg,
      take_truncate _ _ _ hk1 (le_trans hk2 (synced_length _ _)), take_synced _ _ _ hk2]

theorem close_reopen_roundtrip_witness :
    (⟨twoEntries.mmap⟩ : File).data.length = 2 * 12 ∧
      ∀ (n : Int) (r : Nat × Nat × error), Read twoEntries n = Result.ret r →
        Read { file := ⟨twoEntries.mmap ++ List.replicate 12 0⟩,
               mmap := twoEntries.mmap ++ List.replicate 12 0, size := 24 } n
          = Result.ret r :=
  close_reopen_roundtrip error.nil error.nil error.nil error.nil error.nil error.nil error.nil
    twoEntries _ 2 36 [Call.mmapSync, Call.fileSync, Call.fileTruncate 24, Call.fileClose]
    ⟨twoEntries.mmap⟩ (by decide) (by decide) (by decide) (by decide) (by decide) (by decide)

/-- C11 as stated fails for a `MaxIndexBytes` below the logical size: closing the index that
holds `(0, 0)` and `(1, 10)` leaves a 24-byte file; `newIndex` on it with
`MaxIndexBytes = 12` succeeds with size 24 and 12 mapped bytes; `Read(1)` and `Read(-1)`
returned `(1, 10)` before closing and panic afterwards. -/
theorem reopen_with_small_capacity :
    Close error.nil error.nil error.nil error.nil twoEntries
      = ([Call.mmapSync, Call.fileSync, Call.fileTruncate 24, Call.fileClose],
          ⟨twoEntries.mmap⟩, error.nil) ∧
    newIndex error.nil error.nil error.nil ⟨twoEntries.mmap⟩ 12
      = (some { file := ⟨List.replicate 12 0⟩, mmap := List.replicate 12 0, size := 24 },
          error.nil) ∧
    Read twoEntries 1 = Result.ret (1, 10, error.nil) ∧
    Read twoEntries (-1) = Result.ret (1, 10, error.nil) ∧
    Read { file := ⟨List.replicate 12 0⟩, mmap := List.replicate 12 0, size := 24 } 1
      = Result.panic ∧
    Read { file := ⟨List.replicate 12 0⟩, mmap := List.replicate 12 0, size := 24 } (-1)
      = Result.panic := by
  refine ⟨by decide, by decide, by decide, by decide, by decide, by decide⟩

/-! ## C13: `Read` decodes the addressed slot -/

theorem writeAll_big : writeAll bigIndex bigPairs = some bigFull := by
  have h := writeAll_eq bigPairs bigIndex
    (by rw [bigPairs_length, bigIndex_length]; exact Nat.le_of_eq (Nat.zero_add _))
    (by rw [bigIndex_length]; norm_num)
  have hs : bigIndex.size = 0 := rfl
  have hd : bigIndex.mmap.drop (0 + 12 * (2 ^ 32 + 1)) = [] :=
    List.drop_eq_nil_of_le (by rw [bigIndex_length, Nat.zero_add])
  rw [h, hs, bigPairs_length, hd, List.take_zero, List.nil_append, List.append_nil,
    Nat.zero_add]
  rfl

theorem Read_bigFull_wraps : Read bigFull (2 ^ 32 : Int) = Result.ret (0, 0, error.nil) := by
  obtain ⟨s, hs, -, hr⟩ := writeAll_read bigIndex bigPairs rfl
    (by rw [bigPairs_length, bigIndex_length]) (by rw [bigIndex_length]; norm_num)
    bigPairs_typed
  have he : s = bigFull := Option.some.inj (hs.symm.trans writeAll_big)
  subst he
  have hpos : readPos bigFull (2 ^ 32 : Int) = readPos bigFull ((0 : Nat) : Int) := by
    simp only [readPos, readOut, u32OfInt]
    norm_num
  have hpl : 0 < bigPairs.length := by rw [bigPairs_length]; norm_num
  rw [Read_congr _ _ _ hpos, hr 0 hpl (by norm_num), bigPairs_head hpl]

theorem decodeAt_bigFull :
    decodeAt bigFull.mmap (2 ^ 32 * 12) = (1, 1, error.nil) := by
  have hm : bigFull.mmap
      = encodeAll (List.replicate (2 ^ 32) (0, 0)) ++ (PutUint32 1 ++ PutUint64 1) ++ [] := by
    have h1 : encodeAll [(1, 1)] = PutUint32 1 ++ PutUint64 1 := rfl
    show encodeAll bigPairs = _
    unfold bigPairs
    rw [encodeAll_append, h1, List.append_nil]
  rw [hm]
  exact decodeAt_stored _ _ _ _ _
    (by rw [encodeAll_length, List.length_replicate, Nat.mul_comm]) (by norm_num) (by norm_num)

theorem bigFull_length : bigFull.mmap.length = 12 * (2 ^ 32 + 1) := by
  show (encodeAll bigPairs).length = _
  rw [encodeAll_length, bigPairs_length]

/-- The slot of entry `k`, for `0 ≤ k < 2^32`, on an index with `size ≤ len(mmap)`. -/
theorem Read_slot (i : index) (k : Nat) (hk : k < 2 ^ 32) (hfit : k * 12 + 12 ≤ i.size)
    (hb : i.size ≤ i.mmap.length) :
    Read i (k : Int) = Result.ret (decodeAt i.mmap (k * 12)) := by
  rw [Read_eq, readPos_eq, readOut_ofNat _ _ hk]
  have c1 : ¬ (i.size = 0) := by omega
  have c2 : ¬ (i.size < k * 12 + 12) := by omega
  have c3 : k * 12 + 12 ≤ i.mmap.length := by omega
  simp only [c1, c2, c3, if_true, if_false]

/-- C13 (amended): for every index state with `size ≤ len(mmap)` and every `entryIndex` with
`0 ≤ entryIndex < 2^32` whose 12-byte range fits in the logical data
(`entryIndex * 12 + 12 ≤ size`), `Read(entryIndex)` returns no error, and its result is the
big-endian `uint32` decoded from the mapped bytes `[12*entryIndex, 12*entryIndex + 4)` with the
big-endian `uint64` decoded from `[12*entryIndex + 4, 12*entryIndex + 12)`; the slot is chosen
by `entryIndex` alone, whatever offset is stored there. -/
theorem Read_decodes_slot (i : index) (n : Int) (h0 : 0 ≤ n) (h32 : n < 2 ^ 32)
    (hfit : n * 12 + 12 ≤ i.size) (hb : i.size ≤ i.mmap.length) :
    ∃ a b, slice i.mmap (12 * n.toNat) (12 * n.toNat + 4) = some a ∧
      slice i.mmap (12 * n.toNat + 4) (12 * n.toNat + 12) = some b ∧
      Read i n = Result.ret (Uint32 a, Uint64 b, error.nil) := by
  obtain ⟨k, rfl⟩ := Int.eq_ofNat_of_zero_le h0
  have hk : k < 2 ^ 32 := by omega
  have hf : k * 12 + 12 ≤ i.size := by omega
  refine ⟨(i.mmap.drop (12 * k)).take 4, (i.mmap.drop (12 * k + 4)).take 8, ?_, ?_, ?_⟩
  · rw [Int.toNat_ofNat, slice_eq_some _ _ _ (by omega) (by omega)]
    congr 2
    omega
  · rw [Int.toNat_ofNat, slice_eq_some _ _ _ (by omega) (by omega)]
    congr 2
    omega
  · rw [Read_slot i k hk hf hb, Nat.mul_comm k 12]
    rfl

theorem Read_decodes_slot_witness :
    ∃ a b, slice twoEntries.mmap (12 * (1 : Int).toNat) (12 * (1 : Int).toNat + 4) = some a ∧
      slice twoEntries.mmap (12 * (1 : Int).toNat + 4) (12 * (1 : Int).toNat + 12) = some b ∧
      Read twoEntries 1 = Result.ret (Uint32 a, Uint64 b, error.nil) :=
  Read_decodes_slot twoEntries 1 (by decide) (by decide) (by decide) (by decide)

/-- C13 as stated fails in two ways.  With `size > len(mmap)` (`newIndex` on a 24-byte file
with `MaxIndexBytes = 12`), `Read(1)` has its range inside the logical data and panics.  With
`2^32 + 1` entries (`size ≤ len(mmap)`), `Read(2^32)` has its range inside the logical data,
where the bytes decode to `(1, 1)`, and returns entry 0, `(0, 0)`. -/
theorem Read_misses_slot :
    (newIndex error.nil error.nil error.nil ⟨List.replicate 24 0⟩ 12
        = (some { file := ⟨List.replicate 12 0⟩, mmap := List.replicate 12 0, size := 24 },
            error.nil) ∧
      (1 : Int) * 12 + 12 ≤ 24 ∧
      Read { file := ⟨List.replicate 12 0⟩, mmap := List.replicate 12 0, size := 24 } 1
        = Result.panic) ∧
    (writeAll bigIndex bigPairs = some bigFull ∧
      bigFull.size ≤ bigFull.mmap.length ∧
      (2 ^ 32 : Int) * 12 + 12 ≤ bigFull.size ∧
      decodeAt bigFull.mmap (2 ^ 32 * 12) = (1, 1, error.nil) ∧
      Read bigFull (2 ^ 32 : Int) = Result.ret (0, 0, error.nil)) := by
  refine ⟨⟨by decide, by decide, by decide⟩, writeAll_big, ?_, ?_, decodeAt_bigFull,
    Read_bigFull_wraps⟩
  · rw [bigFull_length]
    exact le_refl _
  · show (2 ^ 32 : Int) * 12 + 12 ≤ ((12 * (2 ^ 32 + 1) : Nat) : Int)
    norm_num

/-! ## C14: `Write` touches only its own slot -/

theorem stored_getElem? (m : List Nat) (s off pos k : Nat) (h : s + 12 ≤ m.length)
    (hk : k < s ∨ s + 12 ≤ k) : (stored m s off pos)[k]? = m[k]? := by
  have hl : (m.take s ++ (PutUint32 off ++ PutUint64 pos)).length = s + 12 := by
    simp only [List.length_append, List.length_take, PutUint32_length, PutUint64_length]
    omega
  rcases hk with hk | hk
  · have h1 : k < (m.take s).length := by rw [List.length_take]; omega
    rw [stored, List.append_assoc, List.getElem?_append_left h1, List.getElem?_take_of_lt hk]
  · rw [stored, List.getElem?_append_right (by rw [hl]; exact hk), hl, List.getElem?_drop]
    congr 1
    omega

theorem stored_take_size (m : List Nat) (s off pos : Nat) (h : s ≤ m.length) :
    (stored m s off pos).take s = m.take s := by
  have hl : (m.take s).length = s := by rw [List.length_take]; omega
  rw [stored, List.append_assoc]
  exact List.take_left' hl

theorem readPos_nonneg (i : index) (n : Int) (h0 : 0 ≤ n) (hfit : 12 * n + 12 ≤ i.size) :
    readPos i n + 12 ≤ i.size := by
  have hne : (n = -1) = False := by
    simp only [eq_iff_iff, iff_false]; omega
  rw [readPos_eq]
  simp only [readOut, hne, if_false, u32OfInt]
  omega

theorem readPos_not_last (i j : index) (n : Int) (hn : n ≠ -1) : readPos j n = readPos i n := by
  simp only [readPos, readOut, hn, if_false]

/-- C14 (amended): for every index state in which `Write(offset, position)` succeeds, every
mapped byte outside `[size_before, size_before + 12)` is unchanged and `len(mmap)` is
unchanged; consequently `Read(i)`, for every `i ≥ 0` with `12*i + 12 ≤ size_before`, returns
the same result after the `Write` as before it. -/
theorem Write_frame (i j : index) (off pos : Nat)
    (hw : Write i off pos = Result.ret (j, error.nil)) :
    j.mmap.length = i.mmap.length ∧
    (∀ k : Nat, k < i.size ∨ i.size + 12 ≤ k → j.mmap[k]? = i.mmap[k]?) ∧
    (∀ n : Int, 0 ≤ n → 12 * n + 12 ≤ i.size → Read j n = Read i n) := by
  rcases (Write_ret_iff _ _ _ _ _).1 hw with ⟨-, he, -⟩ | ⟨h1, -, -, rfl⟩
  · cases he
  · have hsl := stored_length i.mmap i.size off pos h1
    refine ⟨hsl, fun k hk => stored_getElem? _ _ _ _ _ h1 hk, ?_⟩
    intro n h0 hfit
    have hp := readPos_nonneg i n h0 hfit
    have hpe : readPos { i with mmap := stored i.mmap i.size off pos, size := i.size + 12 } n
        = readPos i n := readPos_not_last _ _ n (by omega)
    rw [Read_eq, Read_eq, hpe]
    have c1 : ¬ (i.size + 12 = 0) := by omega
    have c2 : ¬ (i.size + 12 < readPos i n + 12) := by omega
    have c3 : readPos i n + 12 ≤ i.mmap.length := by omega
    have c4 : ¬ (i.size = 0) := by omega
    have c5 : ¬ (i.size < readPos i n + 12) := by omega
    simp only [c1, c2, c3, c4, c5, hsl, if_true, if_false]
    rw [← decodeAt_take (stored i.mmap i.size off pos) _ _ hp,
      stored_take_size _ _ _ _ (by omega), decodeAt_take _ _ _ hp]

theorem Write_frame_witness :
    twoEntries.mmap.length = (zeroIndex 24 12).mmap.length ∧
    (∀ k : Nat, k < (zeroIndex 24 12).size ∨ (zeroIndex 24 12).size + 12 ≤ k →
      twoEntries.mmap[k]? = (zeroIndex 24 12).mmap[k]?) ∧
    (∀ n : Int, 0 ≤ n → 12 * n + 12 ≤ (zeroIndex 24 12).size →
      Read twoEntries n = Read (zeroIndex 24 12) n) :=
  Write_frame (zeroIndex 24 12) twoEntries 1 10 (by decide)

/-- C14 as stated fails at `i = -1`, which satisfies `12*i + 12 ≤ size_before`: on the index
holding the single entry `(0, 0)` with 24 bytes mapped, `Write(1, 10)` succeeds; `Read(-1)`
returned `(0, 0)` before it and returns `(1, 10)` after it. -/
theorem Read_last_changes_after_write :
    Write (zeroIndex 24 12) 1 10 = Result.ret (twoEntries, error.nil) ∧
    12 * (-1 : Int) + 12 ≤ ((zeroIndex 24 12).size : Int) ∧
    Read (zeroIndex 24 12) (-1) = Result.ret (0, 0, error.nil) ∧
    Read twoEntries (-1) = Result.ret (1, 10, error.nil) := by
  refine ⟨by decide, by decide, by decide, by decide⟩

/-! ## C15: `Read` sees the low 32 bits of its argument -/

/-- C15: for every index state and every `n` with `n ≠ -1` and `n + 2^32 ≠ -1`, `Read(n)` and
`Read(n + 2^32)` return identical results (offset, position and error, or both panic); in
particular, on an index with at least one entry, `Read(4294967296)` and `Read(-4294967296)`
return entry 0, with no error. -/
theorem Read_low_32_bits (i : index) (n : Int) (h1 : n ≠ -1) (h2 : n + 2 ^ 32 ≠ -1) :
    Read i (n + 2 ^ 32) = Read i n ∧
    (12 ≤ i.size → i.size ≤ i.mmap.length →
      Read i 4294967296 = Result.ret (decodeAt i.mmap 0) ∧
      Read i (-4294967296) = Result.ret (decodeAt i.mmap 0)) := by
  refine ⟨Read_congr _ _ _ ?_, ?_⟩
  · simp only [readPos, readOut, h1, h2, if_false, u32OfInt]
    congr 3
    omega
  · intro hs hb
    have hz := Read_slot i 0 (by norm_num) (by omega) hb
    have p1 : readPos i 4294967296 = readPos i ((0 : Nat) : Int) := by
      simp only [readPos, readOut, u32OfInt]
      norm_num
    have p2 : readPos i (-4294967296) = readPos i ((0 : Nat) : Int) := by
      simp only [readPos, readOut, u32OfInt]
      norm_num
    rw [Read_congr _ _ _ p1, Read_congr _ _ _ p2, hz]
    exact ⟨rfl, rfl⟩

theorem Read_low_32_bits_witness :
    Read twoEntries (1 + 2 ^ 32) = Read twoEntries 1 ∧
    (12 ≤ twoEntries.size → twoEntries.size ≤ twoEntries.mmap.length →
      Read twoEntries 4294967296 = Result.ret (decodeAt twoEntries.mmap 0) ∧
      Read twoEntries (-4294967296) = Result.ret (decodeAt twoEntries.mmap 0)) :=
  Read_low_32_bits twoEntries 1 (by decide) (by decide)

/-! ## C16: the invariant `size ≤ len(mmap)` -/

/-- C16: `size ≤ len(mmap)` is preserved by every call: from a state that satisfies it, the
state after any `Write` (whether it returned `nil` or an error) or `Read` satisfies it.  A
successful `newIndex` establishes it exactly when the file's existing length does not exceed
`MaxIndexBytes`: it sets `size` to the old length and maps `MaxIndexBytes` bytes without
comparing the two. -/
theorem bounds_invariant (i j : index) (op : Op) (e statErr truncErr mapErr : error)
    (f : File) (m : Nat) (i0 : index) :
    (i.size ≤ i.mmap.length → step i op = Result.ret (j, e) → j.size ≤ j.mmap.length) ∧
    (f.data.length < 2 ^ 63 → m < 2 ^ 64 →
      newIndex statErr truncErr mapErr f m = (some i0, error.nil) →
      i0.size = f.data.length ∧ i0.mmap.length = m ∧
        (i0.size ≤ i0.mmap.length ↔ f.data.length ≤ m)) := by
  constructor
  · intro hb hs
    rcases step_ret _ _ _ _ hs with rfl | ⟨h1, -, -, off, pos, -, rfl⟩
    · exact hb
    · simp only
      rw [stored_length _ _ _ _ h1]
      exact h1
  · intro hf hm hn
    obtain ⟨hs, hz, hmm⟩ := newIndex_some _ _ _ _ _ _ _ hn
    obtain ⟨-, hM⟩ := i64OfU64_nonneg m hm hz
    have h1 : i0.size = f.data.length := by
      rw [hs]; exact Nat.mod_eq_of_lt (by omega)
    have h2 : i0.mmap.length = m := by
      rw [hmm, truncate_length, hM]
    exact ⟨h1, h2, by rw [h1, h2]⟩

theorem bounds_invariant_witness :
    ((zeroIndex 24 12).size ≤ (zeroIndex 24 12).mmap.length →
      step (zeroIndex 24 12) (Op.write 1 10) = Result.ret (twoEntries, error.nil) →
      twoEntries.size ≤ twoEntries.mmap.length) ∧
    ((⟨List.replicate 24 0⟩ : File).data.length < 2 ^ 63 → 12 < 2 ^ 64 →
      newIndex error.nil error.nil error.nil ⟨List.replicate 24 0⟩ 12
        = (some { file := ⟨List.replicate 12 0⟩, mmap := List.replicate 12 0, size := 24 },
            error.nil) →
      ({ file := ⟨List.replicate 12 0⟩, mmap := List.replicate 12 0, size := 24 } : index).size
          = (⟨List.replicate 24 0⟩ : File).data.length ∧
        ({ file := ⟨List.replicate 12 0⟩, mmap := List.replicate 12 0, size := 24 }
          : index).mmap.length = 12 ∧
        (({ file := ⟨List.replicate 12 0⟩, mmap := List.replicate 12 0, size := 24 }
            : index).size
          ≤ ({ file := ⟨List.replicate 12 0⟩, mmap := List.replicate 12 0, size := 24 }
            : index).mmap.length
          ↔ (⟨List.replicate 24 0⟩ : File).data.length ≤ 12)) :=
  bounds_invariant (zeroIndex 24 12) twoEntries (Op.write 1 10) error.nil error.nil error.nil
    error.nil ⟨List.replicate 24 0⟩ 12
    { file := ⟨List.replicate 12 0⟩, mmap := List.replicate 12 0, size := 24 }

/-! ## C17: no slice expression of `Read` or `Write` is out of range -/

/-- C17: for every index state with `size ≤ len(mmap)` and `size + 12` not overflowing
`uint64`, every argument of `Read` and every `(offset, position)` of `Write`, neither call
panics: `Read` either returns `io.EOF` or slices only `[p, p+12)` with
`p + 12 ≤ size ≤ len(mmap)`; `Write` either returns `io.EOF` or slices only
`[size, size+12)` with `size + 12 ≤ len(mmap)`. -/
theorem no_slice_panic (i : index) (n : Int) (off pos : Nat) (hb : i.size ≤ i.mmap.length)
    (hov : i.size + 12 < 2 ^ 64) :
    (Read i n = Result.ret (0, 0, error.EOF) ∨
      (readPos i n + 12 ≤ i.size ∧ i.size ≤ i.mmap.length ∧
        slice i.mmap (readPos i n) (readPos i n + 4) ≠ none ∧
        slice i.mmap (readPos i n + 4) (readPos i n + 12) ≠ none ∧
        Read i n = Result.ret (decodeAt i.mmap (readPos i n)))) ∧
    (Write i off pos = Result.ret (i, error.EOF) ∨
      (i.size + 12 ≤ i.mmap.length ∧
        putAt i.mmap i.size (i.size + 4) (PutUint32 off) ≠ none ∧
        Write i off pos = Result.ret
          ({ i with mmap := stored i.mmap i.size off pos, size := i.size + 12 },
            error.nil))) := by
  constructor
  · rw [Read_eq]
    by_cases h0 : i.size = 0
    · exact Or.inl (by simp only [h0, if_true])
    · by_cases h1 : i.size < readPos i n + 12
      · exact Or.inl (by simp only [h0, h1, if_true, if_false])
      · have h2 : readPos i n + 12 ≤ i.mmap.length := by omega
        refine Or.inr ⟨by omega, hb, ?_, ?_, by simp only [h0, h1, h2, if_true, if_false]⟩
        · rw [slice_eq_some _ _ _ (by omega) (by omega)]
          exact fun h => by cases h
        · rw [slice_eq_some _ _ _ (by omega) (by omega)]
          exact fun h => by cases h
  · by_cases hc : i.size + 12 ≤ i.mmap.length
    · refine Or.inr ⟨hc, ?_, (Write_ret_iff _ _ _ _ _).2 (Or.inr ⟨hc, hov, rfl, rfl⟩)⟩
      rw [putAt_eq_some _ _ _ _ (by omega) (by omega) (by rw [PutUint32_length]; omega)]
      exact fun h => by cases h
    · refine Or.inl ((Write_ret_iff _ _ _ _ _).2 (Or.inl ⟨?_, rfl, rfl⟩))
      simp only [u64, entWidth, offWidth, posWidth]
      omega

theorem no_slice_panic_witness :
    (Read twoEntries (-1) = Result.ret (0, 0, error.EOF) ∨
      (readPos twoEntries (-1) + 12 ≤ twoEntries.size ∧
        twoEntries.size ≤ twoEntries.mmap.length ∧
        slice twoEntries.mmap (readPos twoEntries (-1)) (readPos twoEntries (-1) + 4) ≠ none ∧
        slice twoEntries.mmap (readPos twoEntries (-1) + 4) (readPos twoEntries (-1) + 12)
          ≠ none ∧
        Read twoEntries (-1)
          = Result.ret (decodeAt twoEntries.mmap (readPos twoEntries (-1))))) ∧
    (Write twoEntries 2 20 = Result.ret (twoEntries, error.EOF) ∨
      (twoEntries.size + 12 ≤ twoEntries.mmap.length ∧
        putAt twoEntries.mmap twoEntries.size (twoEntries.size + 4) (PutUint32 2) ≠ none ∧
        Write twoEntries 2 20 = Result.ret
          ({ twoEntries with
              mmap := stored twoEntries.mmap twoEntries.size 2 20,
              size := twoEntries.size + 12 }, error.nil))) :=
  no_slice_panic twoEntries (-1) 2 20 (by decide) (by decide)

end Log
